import Mathlib

/-!
Verification of the FSM governance engine core against its specification.

The development shallowly embeds the Rust sources:
* `src/fsm.rs` — fixed transition tables for `IdeaStatus` and `GrantStatus`
  with the predicates `can_transition_to` / `validate_transition`;
* `src/definition.rs` — the declarative `FsmDefinition` validator, its
  structural checks, invariant evaluation, and the start-specific
  cycle-detection walk `has_cycle_from` / `dfs_reaches_start`;
* `src/audit.rs` — the append-only `AuditTrail` with `record` and `verify`.

Rust `Result<(), FsmError>` becomes `Except FsmError Unit`; `HashSet` /
`HashMap` membership and lookup become list membership and association-list
lookup (only membership and lookup are ever used, so iteration order is
irrelevant); `&mut` visited sets become explicit state passing.  The one
recursion of the source (`dfs_reaches_start`) is embedded with an explicit
fuel parameter; fuel sufficiency is proved, making the embedding total
exactly where the source terminates.
-/

/-- Error type of `src/error.rs` (`FsmError`). -/
inductive FsmError where
  | InvalidStateTransition
  | InvalidInput
  | InsufficientMembers
  | InvalidState
  | Overflow
  deriving DecidableEq, Repr

instance {ε α : Type _} [DecidableEq ε] [DecidableEq α] :
    DecidableEq (Except ε α) := fun a b =>
  match a, b with
  | .error e, .error e' =>
    if h : e = e' then .isTrue (by rw [h])
    else .isFalse (fun hc => h (by injection hc))
  | .ok x, .ok y =>
    if h : x = y then .isTrue (by rw [h])
    else .isFalse (fun hc => h (by injection hc))
  | .error _, .ok _ => .isFalse (fun hc => Except.noConfusion hc)
  | .ok _, .error _ => .isFalse (fun hc => Except.noConfusion hc)

/-- Idea lifecycle states, `src/enums.rs` (`IdeaStatus`). -/
inductive IdeaStatus where
  | Draft
  | UnderReview
  | Approved
  | Rejected
  | InProgress
  | Paused
  | Completed
  | Executed
  | Commercialization
  | Archived
  | Resubmitted
  | Voting
  | Expired
  deriving DecidableEq, Repr, Fintype

/-- Grant lifecycle states, `src/grant/types.rs` (`GrantStatus`). -/
inductive GrantStatus where
  | Pending
  | Approved
  | Active
  | Suspended
  | Completed
  | Cancelled
  | Rejected
  | Expired
  | Archived
  deriving DecidableEq, Repr, Fintype

namespace IdeaStatus

/-- Embeds `IdeaStatus::next_states`, `src/fsm.rs` lines 13–30. -/
def next_states : IdeaStatus → List IdeaStatus
  | Draft => [UnderReview, Voting]
  | UnderReview => [Approved, Rejected, Voting]
  | Voting => [Approved, Rejected]
  | Approved => [InProgress, Paused]
  | Rejected => [Archived, Resubmitted]
  | InProgress => [Completed, Paused, Expired]
  | Paused => [InProgress, Archived]
  | Completed => [Executed, Archived]
  | Executed => [Commercialization, Archived]
  | Commercialization => [Archived]
  | Archived => [Resubmitted]
  | Resubmitted => [UnderReview, Voting]
  | Expired => [Archived]

/-- Embeds `IdeaStatus::can_transition_to`, `src/fsm.rs` lines 33–40. -/
def can_transition_to (s target : IdeaStatus) : Bool :=
  if s = target then true
  else (s.next_states).contains target

/-- Embeds `IdeaStatus::validate_transition`, `src/fsm.rs` lines 43–48. -/
def validate_transition (s target : IdeaStatus) : Except FsmError Unit :=
  if !(s.can_transition_to target) then .error FsmError.InvalidStateTransition
  else .ok ()

end IdeaStatus

namespace GrantStatus

/-- Embeds `GrantStatus::next_states`, `src/fsm.rs` lines 54–67. -/
def next_states : GrantStatus → List GrantStatus
  | Pending => [Approved, Rejected]
  | Approved => [Active, Suspended]
  | Active => [Completed, Cancelled, Suspended, Expired]
  | Suspended => [Active, Cancelled]
  | Completed => [Archived]
  | Cancelled => [Archived]
  | Rejected => [Archived]
  | Expired => [Archived]
  | Archived => []

/-- Embeds `GrantStatus::can_transition_to`, `src/fsm.rs` lines 70–77. -/
def can_transition_to (s target : GrantStatus) : Bool :=
  if s = target then true
  else (s.next_states).contains target

/-- Embeds `GrantStatus::validate_transition`, `src/fsm.rs` lines 80–85. -/
def validate_transition (s target : GrantStatus) : Except FsmError Unit :=
  if !(s.can_transition_to target) then .error FsmError.InvalidStateTransition
  else .ok ()

end GrantStatus

/-- Audit entry of `src/audit.rs` (`AuditEntry`); `u64` and `[u8; 32]`
become `Nat` / `List Nat`, `i64` becomes `Int`. -/
structure AuditEntry where
  grant_id : Nat
  actor : List Nat
  from_state : GrantStatus
  to_state : GrantStatus
  action : String
  timestamp : Int
  metadata : Option String
  deriving DecidableEq, Repr

/-- Embeds `AuditTrail::record`, `src/audit.rs` lines 57–64.  The Rust method
mutates `self.entries`; here the entry list is passed and the updated list
is returned on success, so a failed `record` leaves the caller's list
untouched by construction. -/
def record (entries : List AuditEntry) (entry : AuditEntry) :
    Except FsmError (List AuditEntry) :=
  match entry.from_state.validate_transition entry.to_state with
  | .error _ => .error FsmError.InvalidStateTransition
  | .ok _ => .ok (entries ++ [entry])

/-- Embeds `AuditTrail::verify`, `src/audit.rs` lines 67–79: a `windows(2)` scan
over the entry list written as recursion on adjacent pairs. -/
def verify : List AuditEntry → Except FsmError Unit
  | [] => .ok ()
  | [_] => .ok ()
  | first :: second :: rest =>
    if first.grant_id ≠ second.grant_id then verify (second :: rest)
    else if first.to_state ≠ second.from_state then
      .error FsmError.InvalidStateTransition
    else verify (second :: rest)

/-- Transition metadata of `src/definition.rs` (`FsmTransitionMetadata`). -/
structure FsmTransitionMetadata where
  description : Option String
  roles : List String
  deriving DecidableEq, Repr

/-- A declarative transition rule, `src/definition.rs` (`FsmTransition`).
Rust's `from` / `to` fields are named `fromState` / `toState` because
`from` is a Lean keyword. -/
structure FsmTransition where
  fromState : String
  toState : String
  action : String
  guard : Option String
  metadata : Option FsmTransitionMetadata
  deriving DecidableEq, Repr

/-- Embeds `src/definition.rs` (`FsmDefaults`). -/
structure FsmDefaults where
  initial_state : Option String
  deriving DecidableEq, Repr

/-- Embeds `src/definition.rs` (`FsmTransitionRef`), a (from, to) pair inside an
invariant. -/
structure FsmTransitionRef where
  fromState : String
  toState : String
  deriving DecidableEq, Repr

/-- Embeds `src/definition.rs` (`FsmInvariant`). -/
structure FsmInvariant where
  kind : String
  states : List String
  transitions : List FsmTransitionRef
  description : Option String
  deriving DecidableEq, Repr

/-- Embeds `src/definition.rs` (`FsmDefinition`). -/
structure FsmDefinition where
  states : List String
  transitions : List FsmTransition
  defaults : Option FsmDefaults
  invariants : List FsmInvariant
  deriving DecidableEq, Repr

/-- Rust `char::is_whitespace`: true exactly on the code points with the
Unicode White_Space property (U+0009–U+000D, U+0020, U+0085, U+00A0,
U+1680, U+2000–U+200A, U+2028, U+2029, U+202F, U+205F, U+3000).  Lean's
`Char.isWhitespace` covers only space/tab/CR/LF, so the Rust class is
spelled out. -/
def rustIsWhitespace (c : Char) : Bool :=
  (0x9 ≤ c.toNat && c.toNat ≤ 0xD) || c.toNat == 0x20 || c.toNat == 0x85 ||
    c.toNat == 0xA0 || c.toNat == 0x1680 ||
    (0x2000 ≤ c.toNat && c.toNat ≤ 0x200A) ||
    c.toNat == 0x2028 || c.toNat == 0x2029 || c.toNat == 0x202F ||
    c.toNat == 0x205F || c.toNat == 0x3000

/-- Rust `str::trim` modelled on the character-list view of a string:
drop Unicode White_Space characters from both ends. -/
def rustTrim (l : List Char) : List Char :=
  ((l.dropWhile rustIsWhitespace).reverse.dropWhile rustIsWhitespace).reverse

/-- The `.trim().is_empty()` test applied to `from`/`to`/`action` in
`src/definition.rs` lines 77–79,
over the character-list view (the built-in `String.trim` is opaque to
kernel reduction and covers a narrower whitespace class than Rust, so the
list-level trim over `rustIsWhitespace` is used). -/
def trimIsEmpty (s : String) : Bool := (rustTrim s.data).isEmpty

/-- Embeds `FsmDefinition::validate_structure`, `src/definition.rs` lines 69–100.
The `HashSet` of declared states is replaced by membership in the state
list (only `contains` is ever used), and the early-returning `for` loop
over transitions becomes `List.any` (every failing transition returns the
same `InvalidInput` error). -/
def FsmDefinition.validate_structure (d : FsmDefinition) :
    Except FsmError Unit :=
  if d.states.isEmpty || d.transitions.isEmpty then
    .error FsmError.InvalidInput
  else if d.transitions.any (fun t =>
      trimIsEmpty t.fromState || trimIsEmpty t.toState ||
        trimIsEmpty t.action ||
        !(d.states.contains t.fromState) || !(d.states.contains t.toState))
    then .error FsmError.InvalidInput
  else
    match d.defaults with
    | some defaults =>
      match defaults.initial_state with
      | some initial_state =>
        if !(d.states.contains initial_state) then
          .error FsmError.InvalidInput
        else .ok ()
      | none => .ok ()
    | none => .ok ()

/-- One `adjacency.entry(from).or_default().push(to)` step of
`validate_invariants` (`src/definition.rs` lines 113–119) on an
association list with unique keys. -/
def addEdge (adj : List (String × List String)) (k v : String) :
    List (String × List String) :=
  match adj with
  | [] => [(k, [v])]
  | (k', vs) :: rest =>
    if k' = k then (k', vs ++ [v]) :: rest else (k', vs) :: addEdge rest k v

/-- The adjacency mapping from each `from` label to the ordered list of its
`to` labels (`src/definition.rs` lines 113–119). -/
def buildAdjacency (ts : List FsmTransition) : List (String × List String) :=
  ts.foldl (fun adj t => addEdge adj t.fromState t.toState) []

/-- Embeds `adjacency.get(s)` with the `None ↦ no neighbors` reading used by the
walk: the row of `s`, or `[]` when `s` has no outgoing transition. -/
def neighborsOf (adj : List (String × List String)) (s : String) :
    List String :=
  (List.lookup s adj).getD []

/-- Every label that occurs in some neighbor row of the adjacency mapping;
only such labels can ever be inserted into the visited set, so the walk's
recursion depth is bounded by this list's length. -/
def nodesOf (adj : List (String × List String)) : List String :=
  (adj.map Prod.snd).flatten

/-- Number of labels of `nodesOf adj` not yet visited; the termination
measure of the depth-first walk. -/
def countUnvisited (adj : List (String × List String))
    (visited : List String) : Nat :=
  ((nodesOf adj).filter (fun x => !(visited.contains x))).length

/-- Embeds `dfs_reaches_start`, `src/definition.rs` lines 198–215.  The Rust
function takes `current` and loops over `adjacency.get(current)`; here the
pending neighbor list is the explicit argument, so
`dfsLoop adj start fuel (neighborsOf adj current) visited` is the call
`dfs_reaches_start(current, start, adjacency, &mut visited)`.  The
`&mut visited` set is threaded through and returned; `fuel` bounds the
recursion depth (`visited.insert(neighbor)` succeeding strictly shrinks
`countUnvisited`, and the fuel used below is proved sufficient, so the
fuel-exhausted branch is never taken). -/
def dfsLoop (adj : List (String × List String)) (start : String) :
    Nat → List String → List String → Bool × List String
  | _, [], visited => (false, visited)
  | fuel, neighbor :: rest, visited =>
    if neighbor = start then (true, visited)
    else if neighbor ∈ visited then dfsLoop adj start fuel rest visited
    else
      match fuel with
      | 0 => (false, visited)
      | fuel' + 1 =>
        let r := dfsLoop adj start fuel' (neighborsOf adj neighbor)
          (neighbor :: visited)
        if r.1 then (true, r.2) else dfsLoop adj start (fuel' + 1) rest r.2
termination_by fuel pending _ => (fuel, pending.length)

/-- The loop of `has_cycle_from` over the start state's own neighbors,
`src/definition.rs` lines 184–192: a direct self-loop is a cycle, and
otherwise each neighbor starts a depth-first walk sharing the one visited
set. -/
def hcfLoop (adj : List (String × List String)) (start : String)
    (fuel : Nat) : List String → List String → Bool × List String
  | [], visited => (false, visited)
  | neighbor :: rest, visited =>
    if neighbor = start then (true, visited)
    else
      let r := dfsLoop adj start fuel (neighborsOf adj neighbor) visited
      if r.1 then (true, r.2) else hcfLoop adj start fuel rest r.2

/-- Embeds `has_cycle_from`, `src/definition.rs` lines 180–196: visited is seeded
with `start`, and the walk depth can never exceed the number of labels
occurring in neighbor rows, so `(nodesOf adj).length + 1` fuel is always
enough (proved below). -/
def has_cycle_from (start : String)
    (adj : List (String × List String)) : Bool :=
  (hcfLoop adj start ((nodesOf adj).length + 1)
    (neighborsOf adj start) [start]).1

/-- One arm of the invariant `match` of `FsmDefinition::validate_invariants`,
`src/definition.rs` lines 121–173; `states` is the definition's declared
state list (used by the `self_transitions_required` arm), `tset` the
literal transition-pair set, `adj` the adjacency mapping.  The
early-returning inner `for` loops become `List.any`. -/
def checkInvariant (states : List String) (tset : List (String × String))
    (adj : List (String × List String)) (inv : FsmInvariant) :
    Except FsmError Unit :=
  match inv.kind with
  | "terminal_states" =>
    if inv.states.any (fun s =>
        match List.lookup s adj with
        | some outbound => !outbound.isEmpty
        | none => false)
      then .error FsmError.InvalidInput else .ok ()
  | "required_transitions" =>
    if inv.transitions.any (fun t => !(tset.contains (t.fromState, t.toState)))
      then .error FsmError.InvalidInput else .ok ()
  | "forbidden_transitions" =>
    if inv.transitions.any (fun t => tset.contains (t.fromState, t.toState))
      then .error FsmError.InvalidInput else .ok ()
  | "forbidden_cycles" =>
    if inv.states.any (fun s => has_cycle_from s adj)
      then .error FsmError.InvalidInput else .ok ()
  | "self_transitions_required" =>
    let targets := if inv.states.isEmpty then states else inv.states
    if targets.any (fun s => !(tset.contains (s, s)))
      then .error FsmError.InvalidInput else .ok ()
  | _ => .error FsmError.InvalidInput

/-- The invariant loop of `validate_invariants` (`src/definition.rs` lines
121–174): invariants in list order, first failure returned. -/
def checkInvariants (states : List String) (tset : List (String × String))
    (adj : List (String × List String)) :
    List FsmInvariant → Except FsmError Unit
  | [] => .ok ()
  | inv :: rest =>
    match checkInvariant states tset adj inv with
    | .error e => .error e
    | .ok _ => checkInvariants states tset adj rest

/-- Embeds `FsmDefinition::validate_invariants`, `src/definition.rs` lines
102–177.  The `HashSet` of literal (from, to) pairs is replaced by the
mapped pair list (only `contains` is ever used), the `HashMap` by the
association list built by `buildAdjacency` (only `get` is ever used). -/
def FsmDefinition.validate_invariants (d : FsmDefinition) :
    Except FsmError Unit :=
  if d.invariants.isEmpty then .ok ()
  else
    checkInvariants d.states
      (d.transitions.map (fun t => (t.fromState, t.toState)))
      (buildAdjacency d.transitions) d.invariants

/-- Embeds `FsmDefinition::validate`, `src/definition.rs` lines 63–67. -/
def FsmDefinition.validate (d : FsmDefinition) : Except FsmError Unit :=
  match d.validate_structure with
  | .error e => .error e
  | .ok _ => d.validate_invariants

/-- The spec's list of structural failure conditions (spec §4.2,
`validate_structure` items 1–4), stated declaratively: empty state or
transition list; a transition whose `from`, `to`, or `action` trims to
empty or whose `from`/`to` is undeclared; a declared default initial state
that is undeclared. -/
def StructurallyIll (d : FsmDefinition) : Prop :=
  d.states = [] ∨ d.transitions = [] ∨
  (∃ t ∈ d.transitions,
    trimIsEmpty t.fromState = true ∨ trimIsEmpty t.toState = true ∨
      trimIsEmpty t.action = true ∨
      t.fromState ∉ d.states ∨ t.toState ∉ d.states) ∨
  (∃ defaults, d.defaults = some defaults ∧
    ∃ init, defaults.initial_state = some init ∧ init ∉ d.states)

/-- The one-step edge relation of the transition graph described by the
adjacency mapping: `hasEdge adj a b` holds when `b` occurs in the neighbor
row of `a`. -/
def hasEdge (adj : List (String × List String)) (a b : String) : Prop :=
  b ∈ neighborsOf adj a

/-- A label whose entire neighbor row has been examined by the walk: no
neighbor equals `start`, and every neighbor lies in `V`. -/
def Explored (adj : List (String × List String)) (start : String)
    (V : List String) (v : String) : Prop :=
  ∀ m ∈ neighborsOf adj v, m ≠ start ∧ m ∈ V

/-- The idea-lifecycle successor rows exactly as the specification's
"Idea lifecycle" sentence lists them (spec §4.1). -/
def ideaSpecRow : IdeaStatus → List IdeaStatus
  | .Draft => [.UnderReview, .Voting]
  | .UnderReview => [.Approved, .Rejected, .Voting]
  | .Voting => [.Approved, .Rejected]
  | .Approved => [.InProgress, .Paused]
  | .Rejected => [.Archived, .Resubmitted]
  | .InProgress => [.Completed, .Paused, .Expired]
  | .Paused => [.InProgress, .Archived]
  | .Completed => [.Executed, .Archived]
  | .Executed => [.Commercialization, .Archived]
  | .Commercialization => [.Archived]
  | .Archived => [.Resubmitted]
  | .Resubmitted => [.UnderReview, .Voting]
  | .Expired => [.Archived]

/-- The grant-lifecycle successor rows exactly as the specification's
"Grant lifecycle" sentence lists them (spec §4.1). -/
def grantSpecRow : GrantStatus → List GrantStatus
  | .Pending => [.Approved, .Rejected]
  | .Approved => [.Active, .Suspended]
  | .Active => [.Completed, .Cancelled, .Suspended, .Expired]
  | .Suspended => [.Active, .Cancelled]
  | .Completed => [.Archived]
  | .Cancelled => [.Archived]
  | .Rejected => [.Archived]
  | .Expired => [.Archived]
  | .Archived => []

/-- C1: the fixed transition tables reproduce the spec's lifecycle rows
bit-for-bit — for every `IdeaStatus` state the `next_states` row equals the
spec's idea-lifecycle row (same members, same order), for every
`GrantStatus` state it equals the spec's grant-lifecycle row, and the grant
row of `Archived` is empty. -/
theorem fixed_tables_match_spec_rows :
    (∀ s : IdeaStatus, s.next_states = ideaSpecRow s) ∧
    (∀ s : GrantStatus, s.next_states = grantSpecRow s) ∧
    GrantStatus.Archived.next_states = [] := by
  refine ⟨?_, ?_, rfl⟩ <;> intro s <;> cases s <;> rfl

/-- C2: at the predicate layer, self-transition is universally legal — for
every state `s` of either table, `can_transition_to s s` is true and
`validate_transition s s` is `Ok` — and for `s ≠ t`, `can_transition_to s t`
holds exactly when `t` is a member of `next_states s` (equivalently,
`can_transition_to s t` always equals `s == t || next_states s contains t`). -/
theorem self_transition_and_membership_law :
    (∀ s : IdeaStatus, s.can_transition_to s = true ∧
      s.validate_transition s = Except.ok ()) ∧
    (∀ s : GrantStatus, s.can_transition_to s = true ∧
      s.validate_transition s = Except.ok ()) ∧
    (∀ s t : IdeaStatus,
      s.can_transition_to t = (s == t || (s.next_states).contains t)) ∧
    (∀ s t : GrantStatus,
      s.can_transition_to t = (s == t || (s.next_states).contains t)) := by
  refine ⟨?_, ?_, ?_, ?_⟩
  · intro s; cases s <;> exact ⟨rfl, rfl⟩
  · intro s; cases s <;> exact ⟨rfl, rfl⟩
  · decide
  · decide

/-- Boolean per-transition failure test of `validate_structure`, restated
as the spec's declarative disjunction. -/
theorem bad_transition_iff (states : List String) (t : FsmTransition) :
    (trimIsEmpty t.fromState || trimIsEmpty t.toState ||
      trimIsEmpty t.action ||
      !(states.contains t.fromState) || !(states.contains t.toState)) = true ↔
    (trimIsEmpty t.fromState = true ∨ trimIsEmpty t.toState = true ∨
      trimIsEmpty t.action = true ∨
      t.fromState ∉ states ∨ t.toState ∉ states) := by
  simp
  tauto

/-- Totality: `validate_structure` can only yield `InvalidInput` or success. -/
theorem validate_structure_total (d : FsmDefinition) :
    d.validate_structure = Except.error FsmError.InvalidInput ∨
      d.validate_structure = Except.ok () := by
  unfold FsmDefinition.validate_structure
  split_ifs
  · exact Or.inl rfl
  · exact Or.inl rfl
  · split
    · split
      · split_ifs
        · exact Or.inl rfl
        · exact Or.inr rfl
      · exact Or.inr rfl
    · exact Or.inr rfl

/-- C3: `validate_structure` fails with `InvalidInput` exactly when one of
the spec's structural conditions holds (empty state list, empty transition
list, a transition with a whitespace-only `from`/`to`/`action` or an
undeclared `from`/`to`, or an undeclared default initial state), and
succeeds otherwise. -/
theorem validate_structure_err_iff_ill :
    ∀ d : FsmDefinition,
      (d.validate_structure = Except.error FsmError.InvalidInput ↔
        StructurallyIll d) ∧
      (d.validate_structure = Except.ok () ↔ ¬ StructurallyIll d) := by
  intro d
  have main : d.validate_structure = Except.error FsmError.InvalidInput ↔
      StructurallyIll d := by
    unfold FsmDefinition.validate_structure StructurallyIll
    by_cases h1 : (d.states.isEmpty || d.transitions.isEmpty) = true
    · rw [if_pos h1]
      refine iff_of_true rfl ?_
      simp only [Bool.or_eq_true, List.isEmpty_iff] at h1
      tauto
    · rw [if_neg h1]
      simp only [Bool.or_eq_true, List.isEmpty_iff] at h1
      push_neg at h1
      by_cases h2 : d.transitions.any (fun t =>
          trimIsEmpty t.fromState || trimIsEmpty t.toState ||
            trimIsEmpty t.action ||
            !(d.states.contains t.fromState) ||
            !(d.states.contains t.toState)) = true
      · rw [if_pos h2]
        refine iff_of_true rfl ?_
        rw [List.any_eq_true] at h2
        obtain ⟨t, ht, hp⟩ := h2
        exact Or.inr (Or.inr (Or.inl
          ⟨t, ht, (bad_transition_iff d.states t).mp hp⟩))
      · rw [if_neg h2]
        rw [List.any_eq_true] at h2
        push_neg at h2
        have h2' : ∀ t ∈ d.transitions,
            ¬(trimIsEmpty t.fromState = true ∨ trimIsEmpty t.toState = true ∨
              trimIsEmpty t.action = true ∨
              t.fromState ∉ d.states ∨ t.toState ∉ d.states) := by
          intro t ht hbad
          exact h2 t ht ((bad_transition_iff d.states t).mpr hbad)
        rcases hd : d.defaults with _ | defaults
        · simp only [hd]
          constructor
          · intro h; exact Except.noConfusion h
          · rintro (h | h | ⟨t, ht, hbad⟩ | ⟨df, hdf, _⟩)
            · exact absurd h h1.1
            · exact absurd h h1.2
            · exact absurd hbad (h2' t ht)
            · exact Option.noConfusion hdf
        · simp only [hd]
          rcases hi : defaults.initial_state with _ | init
          · simp only [hi]
            constructor
            · intro h; exact Except.noConfusion h
            · rintro (h | h | ⟨t, ht, hbad⟩ | ⟨df, hdf, i, hii, _⟩)
              · exact absurd h h1.1
              · exact absurd h h1.2
              · exact absurd hbad (h2' t ht)
              · injection hdf with hdf'
                subst hdf'
                rw [hi] at hii
                exact Option.noConfusion hii
          · simp only [hi]
            by_cases hc : d.states.contains init = true
            · have hcm : init ∈ d.states := List.elem_iff.mp hc
              rw [if_neg (by simp [hcm])]
              constructor
              · intro h; exact Except.noConfusion h
              · rintro (h | h | ⟨t, ht, hbad⟩ | ⟨df, hdf, i, hii, hni⟩)
                · exact absurd h h1.1
                · exact absurd h h1.2
                · exact absurd hbad (h2' t ht)
                · injection hdf with hdf'
                  subst hdf'
                  rw [hi] at hii
                  injection hii with hii'
                  subst hii'
                  exact absurd hcm hni
            · rw [Bool.not_eq_true] at hc
              have hcm : init ∉ d.states := by
                intro hm
                have hc' : List.elem init d.states = false := hc
                rw [List.elem_iff.mpr hm] at hc'
                exact Bool.noConfusion hc'
              rw [if_pos (by simp [hcm])]
              exact iff_of_true rfl
                (Or.inr (Or.inr (Or.inr ⟨defaults, rfl, init, hi, hcm⟩)))
  refine ⟨main, ?_⟩
  rcases validate_structure_total d with h | h
  · rw [h] at main ⊢
    have hIll : StructurallyIll d := main.mp rfl
    constructor
    · intro he; exact Except.noConfusion he
    · intro hn; exact absurd hIll hn
  · rw [h] at main ⊢
    have hnIll : ¬ StructurallyIll d := fun hi => Except.noConfusion (main.mpr hi)
    constructor
    · intro _; exact hnIll
    · intro _; rfl

/-- The invariant loop succeeds iff every invariant in the list passes. -/
theorem checkInvariants_ok_iff (states : List String)
    (tset : List (String × String)) (adj : List (String × List String)) :
    ∀ invs : List FsmInvariant,
      checkInvariants states tset adj invs = Except.ok () ↔
        ∀ inv ∈ invs, checkInvariant states tset adj inv = Except.ok () := by
  intro invs
  induction invs with
  | nil => simp [checkInvariants]
  | cons inv rest ih =>
    simp only [checkInvariants]
    cases h : checkInvariant states tset adj inv with
    | error e =>
      simp only [List.forall_mem_cons, h]
      constructor
      · intro hcontra; exact Except.noConfusion hcontra
      · rintro ⟨hcontra, _⟩; exact Except.noConfusion hcontra
    | ok u =>
      cases u
      simp only [List.forall_mem_cons, h, ih, true_and]

/-- Helper: `validate_invariants` succeeds iff every invariant of the definition
passes against the definition's transition-pair set and adjacency map. -/
theorem validate_invariants_ok_iff (d : FsmDefinition) :
    d.validate_invariants = Except.ok () ↔
      ∀ inv ∈ d.invariants,
        checkInvariant d.states
          (d.transitions.map (fun t => (t.fromState, t.toState)))
          (buildAdjacency d.transitions) inv = Except.ok () := by
  unfold FsmDefinition.validate_invariants
  by_cases h : d.invariants.isEmpty
  · rw [if_pos h]
    rw [List.isEmpty_iff] at h
    simp [h]
  · rw [if_neg h]
    exact checkInvariants_ok_iff _ _ _ _

/-- C7: the pass/fail outcome of invariant evaluation does not depend on
the order of the invariant list — for every permutation of a definition's
invariants, `validate_invariants` succeeds on the permuted definition iff
it succeeds on the original (each invariant is checked independently
against the same transition-pair set and adjacency map). -/
theorem validate_invariants_order_independent :
    ∀ (d : FsmDefinition) (invs : List FsmInvariant),
      invs.Perm d.invariants →
      (FsmDefinition.validate_invariants
          { d with invariants := invs } = Except.ok () ↔
        d.validate_invariants = Except.ok ()) := by
  intro d invs hperm
  rw [validate_invariants_ok_iff, validate_invariants_ok_iff]
  constructor
  · intro h inv hm
    exact h inv (hperm.mem_iff.mpr hm)
  · intro h inv hm
    exact h inv (hperm.mem_iff.mp hm)

/-- C7 witness: swapping two concrete invariants preserves the outcome. -/
theorem validate_invariants_order_independent_witness :
    List.Perm
      [(⟨"forbidden_transitions", [], [⟨"B", "A"⟩], none⟩ : FsmInvariant),
        ⟨"required_transitions", [], [⟨"A", "B"⟩], none⟩]
      [(⟨"required_transitions", [], [⟨"A", "B"⟩], none⟩ : FsmInvariant),
        ⟨"forbidden_transitions", [], [⟨"B", "A"⟩], none⟩] ∧
    (FsmDefinition.validate_invariants
        ⟨["A", "B"], [⟨"A", "B", "go", none, none⟩], none,
          [⟨"forbidden_transitions", [], [⟨"B", "A"⟩], none⟩,
            ⟨"required_transitions", [], [⟨"A", "B"⟩], none⟩]⟩ =
        Except.ok () ↔
      FsmDefinition.validate_invariants
        ⟨["A", "B"], [⟨"A", "B", "go", none, none⟩], none,
          [⟨"required_transitions", [], [⟨"A", "B"⟩], none⟩,
            ⟨"forbidden_transitions", [], [⟨"B", "A"⟩], none⟩]⟩ =
        Except.ok ()) :=
  ⟨List.Perm.swap _ _ _,
    validate_invariants_order_independent
      ⟨["A", "B"], [⟨"A", "B", "go", none, none⟩], none,
        [⟨"required_transitions", [], [⟨"A", "B"⟩], none⟩,
          ⟨"forbidden_transitions", [], [⟨"B", "A"⟩], none⟩]⟩
      _ (List.Perm.swap _ _ _)⟩

/-- Helper: `validate` succeeds iff both validation phases succeed. -/
theorem validate_ok_iff (d : FsmDefinition) :
    d.validate = Except.ok () ↔
      d.validate_structure = Except.ok () ∧
        d.validate_invariants = Except.ok () := by
  unfold FsmDefinition.validate
  cases h : d.validate_structure with
  | error e =>
    constructor
    · intro hc; exact Except.noConfusion hc
    · rintro ⟨hc, _⟩; exact Except.noConfusion hc
  | ok u =>
    cases u
    simp

/-- Adding an edge under a key different from `lbl` does not change the
adjacency row of `lbl`. -/
theorem lookup_addEdge_ne (lbl v : String) :
    ∀ (adj : List (String × List String)) (k : String), k ≠ lbl →
      List.lookup lbl (addEdge adj k v) = List.lookup lbl adj := by
  intro adj
  induction adj with
  | nil =>
    intro k hk
    have hbe : (lbl == k) = false := beq_eq_false_iff_ne.mpr (Ne.symm hk)
    simp [addEdge, List.lookup, hbe]
  | cons p rest ih =>
    intro k hk
    obtain ⟨k', vs⟩ := p
    by_cases he : k' = k
    · simp only [addEdge, he, if_true]
      subst he
      have hbe : (lbl == k') = false := beq_eq_false_iff_ne.mpr (Ne.symm hk)
      simp [List.lookup, hbe]
    · simp only [addEdge, he, if_false]
      by_cases hl : lbl = k'
      · subst hl
        simp [List.lookup]
      · simp [List.lookup, beq_iff_eq, hl, ih k hk]

/-- A label that is the `from` of no transition has no adjacency row. -/
theorem lookup_buildAdjacency_none (lbl : String) :
    ∀ (ts : List FsmTransition),
      (∀ t ∈ ts, t.fromState ≠ lbl) →
      List.lookup lbl (buildAdjacency ts) = none := by
  have gen : ∀ (ts : List FsmTransition) (acc : List (String × List String)),
      (∀ t ∈ ts, t.fromState ≠ lbl) →
      List.lookup lbl acc = none →
      List.lookup lbl
        (ts.foldl (fun adj t => addEdge adj t.fromState t.toState) acc) =
        none := by
    intro ts
    induction ts with
    | nil => intro acc _ hacc; exact hacc
    | cons t ts' ih =>
      intro acc h hacc
      simp only [List.foldl_cons]
      refine ih _ (fun t' ht' => h t' (List.mem_cons_of_mem t ht')) ?_
      rw [lookup_addEdge_ne lbl t.toState acc t.fromState
        (h t (List.mem_cons_self t ts'))]
      exact hacc
  intro ts h
  exact gen ts [] h rfl

/-- A start state with no adjacency row has no cycle through it. -/
theorem has_cycle_from_no_neighbors (start : String)
    (adj : List (String × List String))
    (h : List.lookup start adj = none) :
    has_cycle_from start adj = false := by
  unfold has_cycle_from neighborsOf
  rw [h]
  simp [hcfLoop]

/-- C10: invariant state references are never checked against the declared
state list — if a definition validates, extending it with a
`terminal_states` or `forbidden_cycles` invariant naming a label that is
declared nowhere and appears in no transition still validates: the label
has no adjacency row, so `terminal_states` holds trivially and the cycle
walk finds nothing, and the misspelled reference is silently accepted. -/
theorem invariant_state_refs_unchecked :
    ∀ (d : FsmDefinition) (lbl : String),
      d.validate = Except.ok () →
      lbl ∉ d.states →
      (∀ t ∈ d.transitions, t.fromState ≠ lbl ∧ t.toState ≠ lbl) →
      FsmDefinition.validate
          { d with invariants :=
              d.invariants ++ [⟨"terminal_states", [lbl], [], none⟩] } =
        Except.ok () ∧
      FsmDefinition.validate
          { d with invariants :=
              d.invariants ++ [⟨"forbidden_cycles", [lbl], [], none⟩] } =
        Except.ok () := by
  intro d lbl hv _ ht
  obtain ⟨hstr, hinv⟩ := (validate_ok_iff d).mp hv
  have hlook : List.lookup lbl (buildAdjacency d.transitions) = none :=
    lookup_buildAdjacency_none lbl d.transitions (fun t htm => (ht t htm).1)
  have hall := (validate_invariants_ok_iff d).mp hinv
  constructor
  · rw [validate_ok_iff]
    refine ⟨hstr, ?_⟩
    rw [validate_invariants_ok_iff]
    intro inv hm
    rcases List.mem_append.mp hm with hm | hm
    · exact hall inv hm
    · rw [List.mem_singleton] at hm
      subst hm
      simp [checkInvariant, hlook]
  · rw [validate_ok_iff]
    refine ⟨hstr, ?_⟩
    rw [validate_invariants_ok_iff]
    intro inv hm
    rcases List.mem_append.mp hm with hm | hm
    · exact hall inv hm
    · rw [List.mem_singleton] at hm
      subst hm
      simp [checkInvariant, has_cycle_from_no_neighbors lbl _ hlook]

/-- C10 witness: a validating two-state definition still validates after
adding `terminal_states` / `forbidden_cycles` invariants over the
undeclared label `"C"`. -/
theorem invariant_state_refs_unchecked_witness :
    FsmDefinition.validate
        ⟨["A", "B"], [⟨"A", "B", "go", none, none⟩], none, []⟩ =
      Except.ok () ∧
    "C" ∉ (["A", "B"] : List String) ∧
    (∀ t ∈ [(⟨"A", "B", "go", none, none⟩ : FsmTransition)],
      t.fromState ≠ "C" ∧ t.toState ≠ "C") ∧
    (FsmDefinition.validate
        ⟨["A", "B"], [⟨"A", "B", "go", none, none⟩], none,
          [⟨"terminal_states", ["C"], [], none⟩]⟩ =
      Except.ok () ∧
    FsmDefinition.validate
        ⟨["A", "B"], [⟨"A", "B", "go", none, none⟩], none,
          [⟨"forbidden_cycles", ["C"], [], none⟩]⟩ =
      Except.ok ()) :=
  ⟨by decide, by decide, by decide,
    invariant_state_refs_unchecked
      ⟨["A", "B"], [⟨"A", "B", "go", none, none⟩], none, []⟩
      "C" (by decide) (by decide) (by decide)⟩

/-- C5: `record` fails exactly on transitions that are illegal under the
grant fixed table (`validate_transition` fails), and is atomic — the only
possible outcomes are the error with the trail untouched, or success with
exactly the given entry appended at the end (all earlier entries unchanged,
in order). -/
theorem record_validates_and_appends :
    ∀ (trail : List AuditEntry) (e : AuditEntry),
      (record trail e = Except.error FsmError.InvalidStateTransition ↔
        e.from_state.validate_transition e.to_state ≠ Except.ok ()) ∧
      (e.from_state.validate_transition e.to_state = Except.ok () →
        record trail e = Except.ok (trail ++ [e])) ∧
      (record trail e = Except.error FsmError.InvalidStateTransition ∨
        record trail e = Except.ok (trail ++ [e])) := by
  intro trail e
  unfold record GrantStatus.validate_transition
  by_cases h : e.from_state.can_transition_to e.to_state = true
  · simp [h]
  · simp [Bool.not_eq_true] at h
    simp [h]

/-- C5 witness: recording `Pending → Approved` on an empty trail succeeds
and appends exactly that entry. -/
theorem record_validates_and_appends_witness :
    GrantStatus.Pending.validate_transition GrantStatus.Approved =
      Except.ok () ∧
    record []
        ⟨1, List.replicate 32 0, GrantStatus.Pending, GrantStatus.Approved,
          "approve", 1000, none⟩ =
      Except.ok
        [⟨1, List.replicate 32 0, GrantStatus.Pending, GrantStatus.Approved,
          "approve", 1000, none⟩] :=
  ⟨rfl,
    (record_validates_and_appends []
      ⟨1, List.replicate 32 0, GrantStatus.Pending, GrantStatus.Approved,
        "approve", 1000, none⟩).2.1 rfl⟩

/-- C6: `verify` succeeds iff every pair of entries adjacent in the trail
with equal `grant_id` satisfies chain continuity (`to_state` of the first
equals `from_state` of the second); adjacent pairs with differing
`grant_id` impose no condition, and trails of length zero or one always
verify. -/
theorem verify_ok_iff_adjacent_chain :
    (∀ es : List AuditEntry,
      verify es = Except.ok () ↔
        List.Chain'
          (fun a b => a.grant_id = b.grant_id → a.to_state = b.from_state)
          es) ∧
    verify [] = Except.ok () ∧
    (∀ e : AuditEntry, verify [e] = Except.ok ()) := by
  refine ⟨?_, rfl, fun _ => rfl⟩
  intro es
  induction es with
  | nil => simp [verify]
  | cons a t ih =>
    cases t with
    | nil => simp [verify]
    | cons b t' =>
      rw [List.chain'_cons, ← ih]
      by_cases hgid : a.grant_id = b.grant_id
      · by_cases hst : a.to_state = b.from_state
        · simp [verify, hgid, hst]
        · simp [verify, hgid, hst]
      · simp [verify, hgid]

/-- C9: `record` does not enforce chain continuity across calls — recording
`Pending → Approved` and then `Active → Completed` for the same grant both
succeed (each single transition is legal in the grant table), yet `verify`
on the resulting trail fails; "every `record` returned Ok" does not imply
"`verify` returns Ok". -/
theorem record_ok_does_not_imply_verify_ok :
    record []
        ⟨1, List.replicate 32 0, GrantStatus.Pending, GrantStatus.Approved,
          "approve", 1000, none⟩ =
      Except.ok
        [⟨1, List.replicate 32 0, GrantStatus.Pending, GrantStatus.Approved,
          "approve", 1000, none⟩] ∧
    record
        [⟨1, List.replicate 32 0, GrantStatus.Pending, GrantStatus.Approved,
          "approve", 1000, none⟩]
        ⟨1, List.replicate 32 0, GrantStatus.Active, GrantStatus.Completed,
          "complete", 1100, none⟩ =
      Except.ok
        [⟨1, List.replicate 32 0, GrantStatus.Pending, GrantStatus.Approved,
          "approve", 1000, none⟩,
         ⟨1, List.replicate 32 0, GrantStatus.Active, GrantStatus.Completed,
          "complete", 1100, none⟩] ∧
    verify
        [⟨1, List.replicate 32 0, GrantStatus.Pending, GrantStatus.Approved,
          "approve", 1000, none⟩,
         ⟨1, List.replicate 32 0, GrantStatus.Active, GrantStatus.Completed,
          "complete", 1100, none⟩] =
      Except.error FsmError.InvalidStateTransition :=
  ⟨rfl, rfl, rfl⟩

/-- Unfolding: the walk over an exhausted neighbor list reports no cycle. -/
theorem dfsLoop_nil (adj : List (String × List String)) (start : String)
    (fuel : Nat) (visited : List String) :
    dfsLoop adj start fuel [] visited = (false, visited) := by
  rw [dfsLoop]

/-- Unfolding of the walk at exhausted fuel. -/
theorem dfsLoop_cons_zero (adj : List (String × List String)) (start : String)
    (n : String) (rest visited : List String) :
    dfsLoop adj start 0 (n :: rest) visited =
      if n = start then (true, visited)
      else if n ∈ visited then dfsLoop adj start 0 rest visited
      else (false, visited) := by
  rw [dfsLoop.eq_def]

/-- Unfolding of one step of the walk with fuel to spare. -/
theorem dfsLoop_cons_succ (adj : List (String × List String)) (start : String)
    (fuel' : Nat) (n : String) (rest visited : List String) :
    dfsLoop adj start (fuel' + 1) (n :: rest) visited =
      if n = start then (true, visited)
      else if n ∈ visited then dfsLoop adj start (fuel' + 1) rest visited
      else
        if (dfsLoop adj start fuel' (neighborsOf adj n) (n :: visited)).1 =
            true
        then (true, (dfsLoop adj start fuel' (neighborsOf adj n)
          (n :: visited)).2)
        else dfsLoop adj start (fuel' + 1) rest
          (dfsLoop adj start fuel' (neighborsOf adj n) (n :: visited)).2 := by
  rw [dfsLoop.eq_def]

/-- Unfolding: the top-level neighbor loop on an empty list. -/
theorem hcfLoop_nil (adj : List (String × List String)) (start : String)
    (fuel : Nat) (visited : List String) :
    hcfLoop adj start fuel [] visited = (false, visited) := rfl

/-- Unfolding of one step of the top-level neighbor loop. -/
theorem hcfLoop_cons (adj : List (String × List String)) (start : String)
    (fuel : Nat) (n : String) (rest visited : List String) :
    hcfLoop adj start fuel (n :: rest) visited =
      if n = start then (true, visited)
      else
        if (dfsLoop adj start fuel (neighborsOf adj n) visited).1 = true
        then (true, (dfsLoop adj start fuel (neighborsOf adj n) visited).2)
        else hcfLoop adj start fuel rest
          (dfsLoop adj start fuel (neighborsOf adj n) visited).2 := rfl

/-- Helper: `contains` agrees with list membership. -/
theorem contains_true_iff (l : List String) (a : String) :
    l.contains a = true ↔ a ∈ l := List.elem_iff

/-- Helper: `contains` returning false means non-membership. -/
theorem contains_false_iff (l : List String) (a : String) :
    l.contains a = false ↔ a ∉ l := by
  constructor
  · intro h hm
    rw [(contains_true_iff l a).mpr hm] at h
    exact Bool.noConfusion h
  · intro h
    cases hc : l.contains a with
    | false => rfl
    | true => exact absurd ((contains_true_iff l a).mp hc) h

/-- A successful association-list lookup comes from an entry of the list. -/
theorem lookup_mem_of_eq_some :
    ∀ (adj : List (String × List String)) (s : String) (l : List String),
      List.lookup s adj = some l → ∃ k, (k, l) ∈ adj := by
  intro adj
  induction adj with
  | nil =>
    intro s l h
    exact absurd h (by simp [List.lookup])
  | cons p rest ih =>
    intro s l h
    obtain ⟨k', vs⟩ := p
    rw [List.lookup] at h
    cases hbe : s == k' with
    | true =>
      rw [hbe] at h
      injection h with h'
      subst h'
      exact ⟨k', List.mem_cons_self _ _⟩
    | false =>
      rw [hbe] at h
      obtain ⟨k, hk⟩ := ih s l h
      exact ⟨k, List.mem_cons_of_mem _ hk⟩

/-- Every neighbor row is contained in the label universe `nodesOf`. -/
theorem neighborsOf_subset_nodesOf (adj : List (String × List String))
    (s : String) : neighborsOf adj s ⊆ nodesOf adj := by
  intro b hb
  unfold neighborsOf at hb
  cases hl : List.lookup s adj with
  | none => rw [hl] at hb; exact absurd hb (by simp)
  | some l =>
    rw [hl] at hb
    simp only [Option.getD_some] at hb
    obtain ⟨k, hk⟩ := lookup_mem_of_eq_some adj s l hl
    unfold nodesOf
    exact List.mem_flatten.mpr ⟨l, List.mem_map.mpr ⟨(k, l), hk, rfl⟩, hb⟩

/-- Filtering with a stronger predicate keeps no more elements. -/
theorem length_filter_mono {p q : String → Bool}
    (h : ∀ x, p x = true → q x = true) :
    ∀ l : List String, (l.filter p).length ≤ (l.filter q).length := by
  intro l
  induction l with
  | nil => simp
  | cons a t ih =>
    rw [List.filter_cons, List.filter_cons]
    by_cases hp : p a = true
    · rw [if_pos hp, if_pos (h a hp)]
      simpa using ih
    · rw [if_neg hp]
      by_cases hq : q a = true
      · rw [if_pos hq]
        exact Nat.le_succ_of_le ih
      · rw [if_neg hq]
        exact ih

/-- The unvisited count never exceeds the label universe's size. -/
theorem countUnvisited_le (adj : List (String × List String))
    (visited : List String) :
    countUnvisited adj visited ≤ (nodesOf adj).length :=
  List.length_filter_le _ _

/-- Growing the visited set cannot increase the unvisited count. -/
theorem countUnvisited_anti (adj : List (String × List String))
    {v w : List String} (h : v ⊆ w) :
    countUnvisited adj w ≤ countUnvisited adj v := by
  unfold countUnvisited
  apply length_filter_mono
  intro x hx
  rw [Bool.not_eq_true'] at hx ⊢
  rw [contains_false_iff] at hx ⊢
  exact fun hm => hx (h hm)

/-- Inserting an unvisited universe label strictly shrinks the unvisited
count: the termination argument of the depth-first walk. -/
theorem countUnvisited_insert_lt (adj : List (String × List String))
    (visited : List String) (m : String)
    (hm : m ∈ nodesOf adj) (hnv : m ∉ visited) :
    countUnvisited adj (m :: visited) < countUnvisited adj visited := by
  unfold countUnvisited
  have hmono : ∀ x, (!((m :: visited).contains x)) = true →
      (!(visited.contains x)) = true := by
    intro x hx
    rw [Bool.not_eq_true'] at hx ⊢
    rw [contains_false_iff] at hx ⊢
    exact fun hmm => hx (List.mem_cons_of_mem m hmm)
  have key : ∀ l : List String, m ∈ l →
      (l.filter (fun x => !((m :: visited).contains x))).length <
        (l.filter (fun x => !(visited.contains x))).length := by
    intro l
    induction l with
    | nil => intro h; cases h
    | cons a t ih =>
      intro hmem
      rw [List.filter_cons, List.filter_cons]
      by_cases ha : a = m
      · subst ha
        have h1 : (!((a :: visited).contains a)) = false := by
          rw [(contains_true_iff _ _).mpr (List.mem_cons_self a visited)]
          rfl
        have h2 : (!(visited.contains a)) = true := by
          rw [(contains_false_iff _ _).mpr hnv]
          rfl
        rw [if_neg (by simp [h1]), if_pos h2]
        have hle := length_filter_mono hmono t
        simpa using Nat.lt_succ_of_le hle
      · have hmem' : m ∈ t := by
          rcases List.mem_cons.mp hmem with h | h
          · exact absurd h.symm ha
          · exact h
        have heq : (!((m :: visited).contains a)) = (!(visited.contains a)) := by
          cases hc : visited.contains a with
          | true =>
            rw [(contains_true_iff _ _).mpr
              (List.mem_cons_of_mem m ((contains_true_iff _ _).mp hc))]
          | false =>
            rw [(contains_false_iff _ _).mpr (by
              intro hmm
              rcases List.mem_cons.mp hmm with h | h
              · exact ha h
              · exact absurd h ((contains_false_iff _ _).mp hc))]
        rw [heq]
        by_cases hq : (!(visited.contains a)) = true
        · rw [if_pos hq, if_pos hq]
          simpa using Nat.succ_lt_succ (ih hmem')
        · rw [if_neg hq, if_neg hq]
          exact ih hmem'
  exact key (nodesOf adj) hm

/-- Helper: `Explored` is monotone in the covering set. -/
theorem explored_mono (adj : List (String × List String)) (start : String)
    {V W : List String} (h : V ⊆ W) {v : String}
    (he : Explored adj start V v) : Explored adj start W v :=
  fun m hm => ⟨(he m hm).1, h (he m hm).2⟩

/-- The walk only ever grows the visited set. -/
theorem dfsLoop_visited_mono (adj : List (String × List String))
    (start : String) :
    ∀ (fuel : Nat) (pending visited : List String),
      visited ⊆ (dfsLoop adj start fuel pending visited).2 := by
  intro fuel
  induction fuel with
  | zero =>
    intro pending
    induction pending with
    | nil => intro visited; rw [dfsLoop]; exact fun x hx => hx
    | cons n rest ihp =>
      intro visited
      rw [dfsLoop_cons_zero]
      by_cases h1 : n = start
      · rw [if_pos h1]; exact fun x hx => hx
      · rw [if_neg h1]
        by_cases h2 : n ∈ visited
        · rw [if_pos h2]; exact ihp visited
        · rw [if_neg h2]; exact fun x hx => hx
  | succ fuel' ihf =>
    intro pending
    induction pending with
    | nil => intro visited; rw [dfsLoop]; exact fun x hx => hx
    | cons n rest ihp =>
      intro visited
      rw [dfsLoop_cons_succ]
      by_cases h1 : n = start
      · rw [if_pos h1]; exact fun x hx => hx
      · rw [if_neg h1]
        by_cases h2 : n ∈ visited
        · rw [if_pos h2]; exact ihp visited
        · rw [if_neg h2]
          have hmono1 : (n :: visited) ⊆
              (dfsLoop adj start fuel' (neighborsOf adj n)
                (n :: visited)).2 :=
            ihf (neighborsOf adj n) (n :: visited)
          by_cases hr : (dfsLoop adj start fuel' (neighborsOf adj n)
              (n :: visited)).1 = true
          · rw [if_pos hr]
            exact fun x hx => hmono1 (List.mem_cons_of_mem n hx)
          · rw [if_neg hr]
            exact fun x hx => ihp _ (hmono1 (List.mem_cons_of_mem n hx))

/-- The top-level loop of `has_cycle_from` only ever grows the visited
set. -/
theorem hcfLoop_visited_mono (adj : List (String × List String))
    (start : String) (fuel : Nat) :
    ∀ (pending visited : List String),
      visited ⊆ (hcfLoop adj start fuel pending visited).2 := by
  intro pending
  induction pending with
  | nil => intro visited; rw [hcfLoop_nil]; exact fun x hx => hx
  | cons n rest ihp =>
    intro visited
    rw [hcfLoop_cons]
    by_cases h1 : n = start
    · rw [if_pos h1]; exact fun x hx => hx
    · rw [if_neg h1]
      by_cases hr : (dfsLoop adj start fuel (neighborsOf adj n)
          visited).1 = true
      · rw [if_pos hr]
        exact dfsLoop_visited_mono adj start fuel _ _
      · rw [if_neg hr]
        exact fun x hx =>
          ihp _ (dfsLoop_visited_mono adj start fuel _ _ hx)

/-- Soundness of the walk: a positive answer exhibits a pending neighbor
from which `start` is reachable. -/
theorem dfsLoop_true_reaches (adj : List (String × List String))
    (start : String) :
    ∀ (fuel : Nat) (pending visited : List String),
      (dfsLoop adj start fuel pending visited).1 = true →
      ∃ m ∈ pending, Relation.ReflTransGen (hasEdge adj) m start := by
  intro fuel
  induction fuel with
  | zero =>
    intro pending
    induction pending with
    | nil =>
      intro visited h
      rw [dfsLoop] at h
      exact absurd h (by simp)
    | cons n rest ihp =>
      intro visited h
      rw [dfsLoop_cons_zero] at h
      by_cases h1 : n = start
      · exact ⟨n, List.mem_cons_self n rest, h1 ▸ Relation.ReflTransGen.refl⟩
      · rw [if_neg h1] at h
        by_cases h2 : n ∈ visited
        · rw [if_pos h2] at h
          obtain ⟨m, hm, hrt⟩ := ihp visited h
          exact ⟨m, List.mem_cons_of_mem n hm, hrt⟩
        · rw [if_neg h2] at h
          exact absurd h (by simp)
  | succ fuel' ihf =>
    intro pending
    induction pending with
    | nil =>
      intro visited h
      rw [dfsLoop] at h
      exact absurd h (by simp)
    | cons n rest ihp =>
      intro visited h
      rw [dfsLoop_cons_succ] at h
      by_cases h1 : n = start
      · exact ⟨n, List.mem_cons_self n rest, h1 ▸ Relation.ReflTransGen.refl⟩
      · rw [if_neg h1] at h
        by_cases h2 : n ∈ visited
        · rw [if_pos h2] at h
          obtain ⟨m, hm, hrt⟩ := ihp visited h
          exact ⟨m, List.mem_cons_of_mem n hm, hrt⟩
        · rw [if_neg h2] at h
          by_cases hr1 : (dfsLoop adj start fuel' (neighborsOf adj n)
              (n :: visited)).1 = true
          · obtain ⟨m, hm, hrt⟩ :=
              ihf (neighborsOf adj n) (n :: visited) hr1
            exact ⟨n, List.mem_cons_self n rest,
              Relation.ReflTransGen.head
                (show hasEdge adj n m from hm) hrt⟩
          · rw [if_neg hr1] at h
            obtain ⟨m, hm, hrt⟩ := ihp _ h
            exact ⟨m, List.mem_cons_of_mem n hm, hrt⟩

/-- Completeness invariant of the walk: a negative answer means every
pending neighbor is distinct from `start` and lands in the final visited
set, and every newly visited label is fully explored with respect to the
final visited set. -/
theorem dfsLoop_false_post (adj : List (String × List String))
    (start : String) :
    ∀ (fuel : Nat) (pending visited : List String),
      pending ⊆ nodesOf adj →
      countUnvisited adj visited < fuel →
      (dfsLoop adj start fuel pending visited).1 = false →
      (∀ n ∈ pending, n ≠ start ∧
        n ∈ (dfsLoop adj start fuel pending visited).2) ∧
      (∀ v ∈ (dfsLoop adj start fuel pending visited).2, v ∉ visited →
        Explored adj start (dfsLoop adj start fuel pending visited).2 v) := by
  intro fuel
  induction fuel with
  | zero =>
    intro pending visited _ hcnt _
    exact absurd hcnt (Nat.not_lt_zero _)
  | succ fuel' ihf =>
    intro pending
    induction pending with
    | nil =>
      intro visited _ _ _
      rw [dfsLoop]
      refine ⟨fun n hn => absurd hn (List.not_mem_nil n), ?_⟩
      intro v hv hnv
      exact absurd hv hnv
    | cons n rest ihp =>
      intro visited hsub hcnt hres
      rw [dfsLoop_cons_succ] at hres ⊢
      by_cases h1 : n = start
      · rw [if_pos h1] at hres
        exact absurd hres (by simp)
      · rw [if_neg h1] at hres ⊢
        by_cases h2 : n ∈ visited
        · rw [if_pos h2] at hres ⊢
          obtain ⟨hb, hc⟩ := ihp visited
            (fun x hx => hsub (List.mem_cons_of_mem n hx)) hcnt hres
          refine ⟨?_, hc⟩
          intro x hx
          rcases List.mem_cons.mp hx with rfl | hx'
          · exact ⟨h1, dfsLoop_visited_mono adj start _ _ _ h2⟩
          · exact hb x hx'
        · rw [if_neg h2] at hres ⊢
          have hn_node : n ∈ nodesOf adj := hsub (List.mem_cons_self n rest)
          have hins := countUnvisited_insert_lt adj visited n hn_node h2
          have hcnt1 : countUnvisited adj (n :: visited) < fuel' := by omega
          by_cases hr1 : (dfsLoop adj start fuel' (neighborsOf adj n)
              (n :: visited)).1 = true
          · rw [if_pos hr1] at hres
            exact absurd hres (by simp)
          · rw [if_neg hr1] at hres ⊢
            have hrfalse : (dfsLoop adj start fuel' (neighborsOf adj n)
                (n :: visited)).1 = false := by
              cases hh : (dfsLoop adj start fuel' (neighborsOf adj n)
                  (n :: visited)).1 with
              | false => rfl
              | true => exact absurd hh hr1
            obtain ⟨hb1, hc1⟩ := ihf (neighborsOf adj n) (n :: visited)
              (neighborsOf_subset_nodesOf adj n) hcnt1 hrfalse
            have hmono1 : (n :: visited) ⊆
                (dfsLoop adj start fuel' (neighborsOf adj n)
                  (n :: visited)).2 :=
              dfsLoop_visited_mono adj start fuel' _ _
            have hsubv : visited ⊆
                (dfsLoop adj start fuel' (neighborsOf adj n)
                  (n :: visited)).2 :=
              fun x hx => hmono1 (List.mem_cons_of_mem n hx)
            have hcnt2 : countUnvisited adj
                (dfsLoop adj start fuel' (neighborsOf adj n)
                  (n :: visited)).2 < fuel' + 1 := by
              have hle := countUnvisited_anti adj hsubv
              omega
            obtain ⟨hb2, hc2⟩ := ihp
              (dfsLoop adj start fuel' (neighborsOf adj n) (n :: visited)).2
              (fun x hx => hsub (List.mem_cons_of_mem n hx)) hcnt2 hres
            have hmono2 : (dfsLoop adj start fuel' (neighborsOf adj n)
                (n :: visited)).2 ⊆
                (dfsLoop adj start (fuel' + 1) rest
                  (dfsLoop adj start fuel' (neighborsOf adj n)
                    (n :: visited)).2).2 :=
              dfsLoop_visited_mono adj start _ _ _
            constructor
            · intro x hx
              rcases List.mem_cons.mp hx with rfl | hx'
              · exact ⟨h1, hmono2 (hmono1 (List.mem_cons_self x visited))⟩
              · exact hb2 x hx'
            · intro v hv hnv
              by_cases hvr : v ∈ (dfsLoop adj start fuel'
                  (neighborsOf adj n) (n :: visited)).2
              · by_cases hveq : v = n
                · subst hveq
                  exact fun m hm => ⟨(hb1 m hm).1, hmono2 (hb1 m hm).2⟩
                · have hvn : v ∉ n :: visited := by
                    intro hcc
                    rcases List.mem_cons.mp hcc with h | h
                    · exact hveq h
                    · exact hnv h
                  exact fun m hm =>
                    ⟨(hc1 v hvr hvn m hm).1, hmono2 (hc1 v hvr hvn m hm).2⟩
              · exact hc2 v hv hvr

/-- Soundness of the top-level loop: a positive answer exhibits a neighbor
of `start` from which `start` is reachable. -/
theorem hcfLoop_true_reaches (adj : List (String × List String))
    (start : String) (fuel : Nat) :
    ∀ (pending visited : List String),
      (hcfLoop adj start fuel pending visited).1 = true →
      ∃ m ∈ pending, Relation.ReflTransGen (hasEdge adj) m start := by
  intro pending
  induction pending with
  | nil =>
    intro visited h
    rw [hcfLoop_nil] at h
    exact absurd h (by simp)
  | cons n rest ihp =>
    intro visited h
    rw [hcfLoop_cons] at h
    by_cases h1 : n = start
    · exact ⟨n, List.mem_cons_self n rest, h1 ▸ Relation.ReflTransGen.refl⟩
    · rw [if_neg h1] at h
      by_cases hr : (dfsLoop adj start fuel (neighborsOf adj n)
          visited).1 = true
      · obtain ⟨m, hm, hrt⟩ := dfsLoop_true_reaches adj start fuel _ _ hr
        exact ⟨n, List.mem_cons_self n rest,
          Relation.ReflTransGen.head (show hasEdge adj n m from hm) hrt⟩
      · rw [if_neg hr] at h
        obtain ⟨m, hm, hrt⟩ := ihp _ h
        exact ⟨m, List.mem_cons_of_mem n hm, hrt⟩

/-- Completeness invariant of the top-level loop: with enough fuel, a
negative answer means every pending neighbor differs from `start` and is
fully explored, and every newly visited label is fully explored. -/
theorem hcfLoop_false_post (adj : List (String × List String))
    (start : String) (fuel : Nat)
    (hfuel : (nodesOf adj).length < fuel) :
    ∀ (pending visited : List String),
      (hcfLoop adj start fuel pending visited).1 = false →
      (∀ n ∈ pending, n ≠ start ∧
        Explored adj start (hcfLoop adj start fuel pending visited).2 n) ∧
      (∀ v ∈ (hcfLoop adj start fuel pending visited).2, v ∉ visited →
        Explored adj start (hcfLoop adj start fuel pending visited).2 v) := by
  intro pending
  induction pending with
  | nil =>
    intro visited _
    rw [hcfLoop_nil]
    exact ⟨fun n hn => absurd hn (List.not_mem_nil n),
      fun v hv hnv => absurd hv hnv⟩
  | cons n rest ihp =>
    intro visited hres
    rw [hcfLoop_cons] at hres ⊢
    by_cases h1 : n = start
    · rw [if_pos h1] at hres
      exact absurd hres (by simp)
    · rw [if_neg h1] at hres ⊢
      by_cases hr : (dfsLoop adj start fuel (neighborsOf adj n)
          visited).1 = true
      · rw [if_pos hr] at hres
        exact absurd hres (by simp)
      · rw [if_neg hr] at hres ⊢
        have hrfalse : (dfsLoop adj start fuel (neighborsOf adj n)
            visited).1 = false := by
          cases hh : (dfsLoop adj start fuel (neighborsOf adj n)
              visited).1 with
          | false => rfl
          | true => exact absurd hh hr
        have hcnt : countUnvisited adj visited < fuel :=
          Nat.lt_of_le_of_lt (countUnvisited_le adj visited) hfuel
        obtain ⟨hb1, hc1⟩ := dfsLoop_false_post adj start fuel
          (neighborsOf adj n) visited
          (neighborsOf_subset_nodesOf adj n) hcnt hrfalse
        obtain ⟨hb2, hc2⟩ := ihp
          (dfsLoop adj start fuel (neighborsOf adj n) visited).2 hres
        have hmono2 : (dfsLoop adj start fuel (neighborsOf adj n)
            visited).2 ⊆
            (hcfLoop adj start fuel rest
              (dfsLoop adj start fuel (neighborsOf adj n) visited).2).2 :=
          hcfLoop_visited_mono adj start fuel rest _
        constructor
        · intro x hx
          rcases List.mem_cons.mp hx with hxe | hx'
          · rw [hxe]
            refine ⟨h1, ?_⟩
            exact fun m hm => ⟨(hb1 m hm).1, hmono2 (hb1 m hm).2⟩
          · exact hb2 x hx'
        · intro v hv hnv
          by_cases hvr : v ∈ (dfsLoop adj start fuel (neighborsOf adj n)
              visited).2
          · exact fun m hm =>
              ⟨(hc1 v hvr hnv m hm).1, hmono2 (hc1 v hvr hnv m hm).2⟩
          · exact hc2 v hv hvr

/-- C4: `has_cycle_from` is start-specific reachability back to the start —
it returns true exactly when a non-empty directed path (including a direct
self-loop) leads from the queried state back to itself in the adjacency
graph; a cycle avoiding the queried state is therefore never reported for
it. -/
theorem has_cycle_from_iff_cycle :
    ∀ (start : String) (adj : List (String × List String)),
      has_cycle_from start adj = true ↔
        Relation.TransGen (hasEdge adj) start start := by
  intro start adj
  constructor
  · intro h
    unfold has_cycle_from at h
    obtain ⟨n, hn, hrt⟩ := hcfLoop_true_reaches adj start _ _ _ h
    exact Relation.TransGen.head' (show hasEdge adj start n from hn) hrt
  · intro hcyc
    by_contra h
    rw [Bool.not_eq_true] at h
    unfold has_cycle_from at h
    obtain ⟨hb, hc⟩ := hcfLoop_false_post adj start
      ((nodesOf adj).length + 1) (Nat.lt_succ_self _)
      (neighborsOf adj start) [start] h
    obtain ⟨x, hx_edge, hx_rtg⟩ := Relation.TransGen.head'_iff.mp hcyc
    obtain ⟨hx_ne, hx_exp⟩ := hb x hx_edge
    have closure : ∀ v ∈ (hcfLoop adj start ((nodesOf adj).length + 1)
        (neighborsOf adj start) [start]).2, v ≠ start →
        Explored adj start (hcfLoop adj start ((nodesOf adj).length + 1)
          (neighborsOf adj start) [start]).2 v := by
      intro v hv hne
      exact hc v hv (by simp [hne])
    have main : ∀ z, Relation.ReflTransGen (hasEdge adj) z start →
        z ≠ start →
        Explored adj start (hcfLoop adj start ((nodesOf adj).length + 1)
          (neighborsOf adj start) [start]).2 z → False := by
      intro z hz
      induction hz using Relation.ReflTransGen.head_induction_on with
      | refl => intro hne _; exact hne rfl
      | head hstep htail ih =>
        intro hne hexp
        obtain ⟨hcne, hcmem⟩ := hexp _ hstep
        exact ih hcne (closure _ hcmem hcne)
    exact main x hx_rtg hx_ne hx_exp

/-- Fuel above the per-call requirement does not change the walk. -/
theorem dfsLoop_fuel_congr (adj : List (String × List String))
    (start : String) :
    ∀ (f₁ : Nat) (pending visited : List String) (f₂ : Nat),
      pending ⊆ nodesOf adj →
      countUnvisited adj visited < f₁ →
      countUnvisited adj visited < f₂ →
      dfsLoop adj start f₁ pending visited =
        dfsLoop adj start f₂ pending visited := by
  intro f₁
  induction f₁ with
  | zero =>
    intro pending visited f₂ _ h _
    exact absurd h (Nat.not_lt_zero _)
  | succ f₁' ihf =>
    intro pending
    induction pending with
    | nil =>
      intro visited f₂ _ _ _
      rw [dfsLoop_nil, dfsLoop_nil]
    | cons n rest ihp =>
      intro visited f₂ hsub hcnt1 hcnt2
      cases f₂ with
      | zero => exact absurd hcnt2 (Nat.not_lt_zero _)
      | succ f₂' =>
        rw [dfsLoop_cons_succ, dfsLoop_cons_succ]
        by_cases h1 : n = start
        · rw [if_pos h1, if_pos h1]
        · rw [if_neg h1, if_neg h1]
          by_cases h2 : n ∈ visited
          · rw [if_pos h2, if_pos h2]
            exact ihp visited (f₂' + 1)
              (fun x hx => hsub (List.mem_cons_of_mem n hx)) hcnt1 hcnt2
          · rw [if_neg h2, if_neg h2]
            have hn_node : n ∈ nodesOf adj :=
              hsub (List.mem_cons_self n rest)
            have hins := countUnvisited_insert_lt adj visited n hn_node h2
            have hde : dfsLoop adj start f₁' (neighborsOf adj n)
                (n :: visited) =
                dfsLoop adj start f₂' (neighborsOf adj n) (n :: visited) :=
              ihf (neighborsOf adj n) (n :: visited) f₂'
                (neighborsOf_subset_nodesOf adj n) (by omega) (by omega)
            rw [← hde]
            by_cases hr : (dfsLoop adj start f₁' (neighborsOf adj n)
                (n :: visited)).1 = true
            · rw [if_pos hr, if_pos hr]
            · rw [if_neg hr, if_neg hr]
              have hmono : visited ⊆ (dfsLoop adj start f₁'
                  (neighborsOf adj n) (n :: visited)).2 :=
                fun x hx => dfsLoop_visited_mono adj start f₁' _ _
                  (List.mem_cons_of_mem n hx)
              have hcr := countUnvisited_anti adj hmono
              exact ihp _ (f₂' + 1)
                (fun x hx => hsub (List.mem_cons_of_mem n hx))
                (by omega) (by omega)

/-- Fuel above the label-count bound does not change the top-level loop. -/
theorem hcfLoop_fuel_congr (adj : List (String × List String))
    (start : String) (f₁ f₂ : Nat)
    (h₁ : (nodesOf adj).length < f₁) (h₂ : (nodesOf adj).length < f₂) :
    ∀ (pending visited : List String),
      hcfLoop adj start f₁ pending visited =
        hcfLoop adj start f₂ pending visited := by
  intro pending
  induction pending with
  | nil => intro visited; rw [hcfLoop_nil, hcfLoop_nil]
  | cons n rest ihp =>
    intro visited
    rw [hcfLoop_cons, hcfLoop_cons]
    by_cases hs : n = start
    · rw [if_pos hs, if_pos hs]
    · rw [if_neg hs, if_neg hs]
      have hcnt1 : countUnvisited adj visited < f₁ :=
        Nat.lt_of_le_of_lt (countUnvisited_le adj visited) h₁
      have hcnt2 : countUnvisited adj visited < f₂ :=
        Nat.lt_of_le_of_lt (countUnvisited_le adj visited) h₂
      have hde : dfsLoop adj start f₁ (neighborsOf adj n) visited =
          dfsLoop adj start f₂ (neighborsOf adj n) visited :=
        dfsLoop_fuel_congr adj start f₁ (neighborsOf adj n) visited f₂
          (neighborsOf_subset_nodesOf adj n) hcnt1 hcnt2
      rw [← hde]
      by_cases hr : (dfsLoop adj start f₁ (neighborsOf adj n)
          visited).1 = true
      · rw [if_pos hr, if_pos hr]
      · rw [if_neg hr, if_neg hr]
        exact ihp _

/-- C8: the depth-first walk's recursion is bounded by the number of state
labels: the visited set grows strictly at every recursive descent, so any
fuel of at least one more than the label universe's size computes the same
total answer — `has_cycle_from` terminates on every graph, cyclic ones
included. -/
theorem has_cycle_walk_bounded_by_labels :
    ∀ (adj : List (String × List String)) (start : String) (fuel : Nat),
      (nodesOf adj).length + 1 ≤ fuel →
      (hcfLoop adj start fuel (neighborsOf adj start) [start]).1 =
        has_cycle_from start adj := by
  intro adj start fuel hf
  unfold has_cycle_from
  rw [hcfLoop_fuel_congr adj start fuel ((nodesOf adj).length + 1)
    (by omega) (Nat.lt_succ_self _)]

/-- C8 witness: on the two-cycle graph A→B→A, any fuel of at least the
bound computes the fixed-fuel answer. -/
theorem has_cycle_walk_bounded_by_labels_witness :
    (nodesOf [("A", ["B"]), ("B", ["A"])]).length + 1 ≤ 5 ∧
    (hcfLoop [("A", ["B"]), ("B", ["A"])] "A" 5
        (neighborsOf [("A", ["B"]), ("B", ["A"])] "A") ["A"]).1 =
      has_cycle_from "A" [("A", ["B"]), ("B", ["A"])] :=
  ⟨by decide,
    has_cycle_walk_bounded_by_labels [("A", ["B"]), ("B", ["A"])] "A" 5
      (by decide)⟩
